import Mathlib

/-
Shallow embedding of the rust_chain repository (David1425/rust_chain) for
checking the natural-language specification against the code.

Conventions of the embedding:
- Rust `String` fields become Lean `String`; Rust byte vectors (`Vec<u8>`)
  become `List Nat`; `u64`/`u32`/`usize` become `Nat`, with an explicit
  `% 2^64` / `% 2^32` wherever the source can overflow (release-mode
  two's-complement semantics); `i64` becomes `Int` wrapped into the i64
  range where the source can overflow.
- Rust `&str` comparison (`hash < target`) is byte-wise lexicographic; the
  strings involved are ASCII, so comparing `List Char` by code point is
  identical. `strLt` below mirrors it.
- `sha256_hash` (src/crypto/hash.rs) and the debug-format renderings that
  feed it are cryptographic black boxes; functions that need them take the
  hash function as an explicit parameter, so theorems quantify over it.
- Wall-clock time (`SystemTime::now()`) is passed in as an explicit
  timestamp parameter; elapsed-time fields are modelled as 0.
- `HashMap<String, Chain>` (fork choice) and `HashMap<String, u64>`
  (balances) are modelled as association lists; insert replaces the
  binding, remove drops it, lookups take the first match.
-/

/-! ## Data model: src/blockchain/block.rs -/

/-- Transaction from src/blockchain/block.rs. Lean reserves `from`, so the
`from`/`to` fields are named `from_addr`/`to_addr`. `signature : Vec<u8>`
becomes `List Nat`. -/
structure Transaction where
  from_addr : String
  to_addr : String
  amount : Nat
  signature : List Nat
deriving DecidableEq, Repr

/-- BlockHeader from src/blockchain/block.rs. -/
structure BlockHeader where
  previous_hash : String
  timestamp : Nat
  nonce : Nat
  merkle_root : String
  hash : String
  height : Nat
deriving DecidableEq, Repr

/-- Block from src/blockchain/block.rs. -/
structure Block where
  header : BlockHeader
  transactions : List Transaction
deriving DecidableEq, Repr

/-- Block::new, with the two hash computations abstracted: `hashFn` stands
for `sha256_hash(format!("{:?}{:?}", header_with_empty_hash, txs))` as a
function of the fields that determine that header (previous_hash,
transactions, nonce, timestamp, height; merkle_root is itself a function of
transactions), and `merkleFn` stands for `calculate_merkle_root`. -/
def Block.new (hashFn : String → List Transaction → Nat → Nat → Nat → String)
    (merkleFn : List Transaction → String)
    (previous_hash : String) (transactions : List Transaction)
    (nonce : Nat) (timestamp : Nat) (height : Nat) : Block :=
  { header :=
      { previous_hash := previous_hash
        timestamp := timestamp
        nonce := nonce
        merkle_root := merkleFn transactions
        hash := hashFn previous_hash transactions nonce timestamp height
        height := height }
    transactions := transactions }

/-! ## Proof of work: src/consensus/pow.rs -/

/-- Byte-wise lexicographic strict order on strings, as `List Char`; for the
ASCII strings compared by `validate_proof` this is exactly Rust `&str`
comparison (`hash < target`). -/
def strLt : List Char → List Char → Bool
  | [], [] => false
  | [], _ :: _ => true
  | _ :: _, [] => false
  | a :: as, b :: bs =>
    if a < b then true
    else if a = b then strLt as bs
    else false

/-- ProofOfWork::calculate_target: `d` zeros followed by `64 - d` letters f.
For `d ≤ 64` the Nat truncated subtraction agrees with the source. -/
def calculate_target (difficulty : Nat) : List Char :=
  List.replicate difficulty '0' ++ List.replicate (64 - difficulty) 'f'

/-- ProofOfWork::validate_proof: `hash < target`. -/
def validate_proof (hash target : List Char) : Bool :=
  strLt hash target

namespace ProofOfWork

/-- ProofOfWork::validate_block at a given difficulty. -/
def validate_block (difficulty : Nat) (b : Block) : Bool :=
  validate_proof b.header.hash.data (calculate_target difficulty)

end ProofOfWork

/-- The lowercase hexadecimal digits. -/
def hexChars : List Char :=
  "0123456789abcdef".data

/-- MiningResult from src/consensus/pow.rs; `elapsed_ms` (wall-clock time)
is not modelled and is always 0 here. -/
structure MiningResult where
  block : Block
  nonce : Nat
  hash : String
  attempts : Nat
  elapsed_ms : Nat
deriving DecidableEq, Repr

/-- The nonce loop of ProofOfWork::mine_block. `fuel` counts the remaining
iterations of `for nonce in 0..MAX_NONCE`; `none` models the final
`panic!` when every nonce is exhausted. `attempts` is incremented at the
top of the loop body exactly as in the source. -/
def mineAux (hashFn : String → List Transaction → Nat → Nat → Nat → String)
    (merkleFn : List Transaction → String) (target : List Char)
    (previous_hash : String) (transactions : List Transaction)
    (height : Nat) (timestamp : Nat) :
    Nat → Nat → Nat → Option MiningResult
  | 0, _, _ => none
  | fuel + 1, nonce, attempts =>
    let attempts1 := attempts + 1
    let block := Block.new hashFn merkleFn previous_hash transactions nonce timestamp height
    if validate_proof block.header.hash.data target then
      some { block := block, nonce := nonce, hash := block.header.hash
             attempts := attempts1, elapsed_ms := 0 }
    else
      mineAux hashFn merkleFn target previous_hash transactions height timestamp
        fuel (nonce + 1) attempts1

namespace ProofOfWork

/-- ProofOfWork::mine_block. `timestamp` is the single wall-clock value
captured at entry. The loop `for nonce in 0..u64::MAX` runs at most
`2^64 - 1` times (the range excludes `u64::MAX`). -/
def mine_block (hashFn : String → List Transaction → Nat → Nat → Nat → String)
    (merkleFn : List Transaction → String) (difficulty : Nat)
    (previous_hash : String) (transactions : List Transaction)
    (height : Nat) (timestamp : Nat) : Option MiningResult :=
  mineAux hashFn merkleFn (calculate_target difficulty) previous_hash transactions
    height timestamp (2 ^ 64 - 1) 0 0

end ProofOfWork

/-- The inner loop of ProofOfWork::adjust_difficulty: sum of consecutive
timestamp differences. The source subtracts `u64`s; for nondecreasing
timestamps (the only case the claims quantify over) Nat subtraction agrees
with it. -/
def sumDeltas : List Block → Nat
  | b1 :: b2 :: rest => (b2.header.timestamp - b1.header.timestamp) + sumDeltas (b2 :: rest)
  | _ => 0

namespace ProofOfWork

/-- ProofOfWork::adjust_difficulty. `difficulty` is a `u32`, so the
increment wraps at `2^32`; `target_block_time_seconds * 2` is a `u64`
product, so it wraps at `2^64` (release-mode semantics). -/
def adjust_difficulty (difficulty : Nat) (last_blocks : List Block)
    (target_block_time_seconds : Nat) : Nat :=
  if last_blocks.length < 2 then difficulty
  else
    let total_time := sumDeltas last_blocks
    let avg_block_time := total_time / (last_blocks.length - 1)
    if avg_block_time < target_block_time_seconds / 2 then
      (difficulty + 1) % 2 ^ 32
    else if avg_block_time > target_block_time_seconds * 2 % 2 ^ 64 then
      if difficulty > 1 then difficulty - 1 else difficulty
    else
      difficulty

end ProofOfWork

/-! ## Chain: src/blockchain/chain.rs

A `Chain` is modelled by its in-memory block vector; the persistence bridge
(`block_store`, `transaction_store`, `persistent`) only mirrors the vector
to disk and is not modelled. -/

namespace Chain

/-- Chain::validate_block: `previous_hash` must equal the tip hash (empty
string for an empty chain, from `unwrap_or_default`) and `height` must
equal the current block count. -/
def validate_block (c : List Block) (b : Block) : Bool :=
  let last_hash := match c.getLast? with
    | some lb => lb.header.hash
    | none => ""
  (b.header.previous_hash == last_hash) && (b.header.height == c.length)

/-- Chain::add_block (non-persistent path): validate, append on success,
and report whether the block was appended. -/
def add_block (c : List Block) (b : Block) : List Block × Bool :=
  if validate_block c b then (c ++ [b], true) else (c, false)

end Chain

/-! ## Account state: src/blockchain/state.rs (UTXOState) -/

/-- UTXOState: `HashMap<String, u64>` modelled as an association list with
no duplicate keys in any state the operations construct. -/
structure UTXOState where
  balances : List (String × Nat)
deriving DecidableEq, Repr

/-- Lookup of the first binding of a key in an association list. -/
def alLookup {α : Type} : List (String × α) → String → Option α
  | [], _ => none
  | (k, v) :: rest, key => if k = key then some v else alLookup rest key

/-- Insert that replaces the first binding of the key, or appends. This is
the `HashMap::insert` of the source on maps without duplicate keys. -/
def alInsert {α : Type} : List (String × α) → String → α → List (String × α)
  | [], key, v => [(key, v)]
  | (k, w) :: rest, key, v =>
    if k = key then (key, v) :: rest else (k, w) :: alInsert rest key v

/-- Removal of every binding of a key; on maps without duplicate keys
(every state the source constructs) this is exactly `HashMap::remove`. -/
def alRemove {α : Type} (l : List (String × α)) (key : String) : List (String × α) :=
  l.filter fun p => p.1 != key

/-- Interpret a `u64` bit pattern as an `i64` (the `as i64` cast). -/
def toI64 (n : Nat) : Int :=
  if n < 2 ^ 63 then (n : Int) else (n : Int) - 2 ^ 64

/-- Wrap an integer into the i64 range (release-mode overflow semantics of
`i64` addition). -/
def wrapI64 (x : Int) : Int :=
  (x + 2 ^ 63) % 2 ^ 64 - 2 ^ 63

namespace UTXOState

/-- UTXOState::new. -/
def new : UTXOState := ⟨[]⟩

/-- UTXOState::get_balance. -/
def get_balance (s : UTXOState) (address : String) : Nat :=
  match alLookup s.balances address with
  | some v => v
  | none => 0

/-- UTXOState::update_balance: `(current as i64 + delta).max(0) as u64`,
removing the key when the result is zero. The `as i64` cast and the `i64`
addition wrap as in the source. -/
def update_balance (s : UTXOState) (address : String) (delta : Int) : UTXOState :=
  let current_balance := toI64 (s.get_balance address)
  let new_balance := (max (wrapI64 (current_balance + delta)) 0).toNat
  if new_balance = 0 then ⟨alRemove s.balances address⟩
  else ⟨alInsert s.balances address new_balance⟩

/-- UTXOState::set_balance. -/
def set_balance (s : UTXOState) (address : String) (balance : Nat) : UTXOState :=
  if balance = 0 then ⟨alRemove s.balances address⟩
  else ⟨alInsert s.balances address balance⟩

end UTXOState

/-- One call against the balance map, for stating invariants over arbitrary
operation sequences. -/
inductive BalanceOp where
  | update (address : String) (delta : Int)
  | set (address : String) (balance : Nat)
deriving DecidableEq, Repr

/-- Apply a sequence of update_balance / set_balance calls. -/
def applyBalanceOps : UTXOState → List BalanceOp → UTXOState
  | s, [] => s
  | s, BalanceOp.update a d :: rest => applyBalanceOps (s.update_balance a d) rest
  | s, BalanceOp.set a v :: rest => applyBalanceOps (s.set_balance a v) rest

/-! ## Mempool validator: src/mempool/validator.rs -/

/-- ValidationError from src/mempool/validator.rs. -/
inductive ValidationError where
  | InvalidSignature
  | InsufficientFunds
  | NegativeAmount
  | SelfTransfer
  | DuplicateTransaction
  | InvalidAddress
  | EmptyTransaction
deriving DecidableEq, Repr

/-- Hex rendering of one nibble, as in the `hex` crate. -/
def hexDigitChar (n : Nat) : Char :=
  if n < 10 then Char.ofNat (48 + n) else Char.ofNat (87 + n)

/-- hex::encode of a byte string. -/
def hexEncode (bytes : List Nat) : String :=
  bytes.foldl
    (fun acc byte => acc ++ String.mk [hexDigitChar (byte / 16 % 16), hexDigitChar (byte % 16)])
    ""

/-- TransactionValidator::calculate_transaction_hash (also
Mempool::calculate_transaction_hash, identical code):
`sha256_hash("{from}:{to}:{amount}:{hex sig}")`, with `sha` the abstracted
sha256_hash. -/
def calculate_transaction_hash (sha : String → String) (t : Transaction) : String :=
  sha (t.from_addr ++ ":" ++ t.to_addr ++ ":" ++ toString t.amount ++ ":" ++ hexEncode t.signature)

/-- TransactionValidator::validate_basic_rules. -/
def validate_basic_rules (t : Transaction) : Except ValidationError Unit :=
  if t.from_addr = "" ∨ t.to_addr = "" then Except.error ValidationError.InvalidAddress
  else if t.amount = 0 then Except.error ValidationError.EmptyTransaction
  else if t.from_addr = t.to_addr then Except.error ValidationError.SelfTransfer
  else Except.ok ()

/-- TransactionValidator::validate_signature. The message hash check at the
end uses the abstracted sha256_hash. -/
def validate_signature (sha : String → String) (t : Transaction) : Except ValidationError Unit :=
  let message := t.from_addr ++ ":" ++ t.to_addr ++ ":" ++ toString t.amount
  if t.signature = [] then
    if t.from_addr.length < 3 ∨ t.to_addr.length < 3 then
      Except.error ValidationError.InvalidSignature
    else
      Except.ok ()
  else if t.signature.length < 32 then Except.error ValidationError.InvalidSignature
  else if t.signature.length ≠ 64 then Except.error ValidationError.InvalidSignature
  else if sha message = "" then Except.error ValidationError.InvalidSignature
  else Except.ok ()

/-- TransactionValidator::validate_funds. -/
def validate_funds (t : Transaction) (utxo_state : UTXOState) : Except ValidationError Unit :=
  if utxo_state.get_balance t.from_addr < t.amount then
    Except.error ValidationError.InsufficientFunds
  else Except.ok ()

/-- TransactionValidator::validate_transaction. The validator state is its
`seen_transactions` set, modelled as the list of seen hashes; the call
returns the validation result together with the updated seen set (the hash
is recorded only on success, as in the source). -/
def validate_transaction (sha : String → String) (seen : List String)
    (t : Transaction) (utxo_state : UTXOState) :
    Except ValidationError Unit × List String :=
  match validate_basic_rules t with
  | Except.error e => (Except.error e, seen)
  | Except.ok _ =>
    let tx_hash := calculate_transaction_hash sha t
    if seen.contains tx_hash then (Except.error ValidationError.DuplicateTransaction, seen)
    else match validate_signature sha t with
      | Except.error e => (Except.error e, seen)
      | Except.ok _ =>
        match validate_funds t utxo_state with
        | Except.error e => (Except.error e, seen)
        | Except.ok _ => (Except.ok (), tx_hash :: seen)

/-! ## Mempool: src/mempool/pool.rs -/

/-- MempoolTransaction. `fee_per_byte` is `f64` in the source but the only
value ever constructed on the mempool's add path is `0.0`
(MempoolTransaction::new), so it is modelled as a Nat; `size_bytes`
(`mem::size_of_val`) is unused by any claim and modelled as 0. -/
structure MempoolTransaction where
  transaction : Transaction
  timestamp : Nat
  fee_per_byte : Nat
  size_bytes : Nat
deriving DecidableEq, Repr

/-- Mempool. `transactions` is the priority deque; `seen` is the embedded
TransactionValidator's seen-hash set; the hash → index lookup table is a
derived structure (rebuilt from `transactions` after every mutation) and
is represented by the transaction list itself. -/
structure Mempool where
  transactions : List MempoolTransaction
  seen : List String
  max_size : Nat
  max_age_seconds : Nat
deriving DecidableEq, Repr

/-- Mempool::insert_with_priority: insert before the first entry that the
new transaction beats (strictly higher fee, or equal fee and strictly
older timestamp), else at the back. -/
def insert_with_priority : List MempoolTransaction → MempoolTransaction → List MempoolTransaction
  | [], m => [m]
  | existing :: rest, m =>
    if m.fee_per_byte > existing.fee_per_byte
        ∨ (m.fee_per_byte = existing.fee_per_byte ∧ m.timestamp < existing.timestamp) then
      m :: existing :: rest
    else existing :: insert_with_priority rest m

/-- The expiry loop of Mempool::cleanup: pop entries older than
`max_age_seconds` from the front, stopping at the first young one.
`saturating_sub` is Nat subtraction. -/
def cleanupAge (now max_age_seconds : Nat) : List MempoolTransaction → List MempoolTransaction
  | [] => []
  | m :: rest =>
    if now - m.timestamp > max_age_seconds then cleanupAge now max_age_seconds rest
    else m :: rest

namespace Mempool

/-- Mempool::new: default limits 1000 transactions, 3600 seconds. -/
def new : Mempool := ⟨[], [], 1000, 3600⟩

/-- Mempool::cleanup: expire old entries from the front, then truncate the
low-priority tail to `max_size` (the pop_back loop). -/
def cleanup (mp : Mempool) (now : Nat) : Mempool :=
  { mp with transactions := (cleanupAge now mp.max_age_seconds mp.transactions).take mp.max_size }

/-- Mempool::add_transaction. `now` is the wall-clock second used both for
the entry timestamp (MempoolTransaction::new) and for cleanup. -/
def add_transaction (sha : String → String) (mp : Mempool) (t : Transaction)
    (now : Nat) (utxo_state : UTXOState) : Except ValidationError Unit × Mempool :=
  match validate_transaction sha mp.seen t utxo_state with
  | (Except.error e, _) => (Except.error e, mp)
  | (Except.ok _, seen1) =>
    let mempool_tx : MempoolTransaction := ⟨t, now, 0, 0⟩
    let tx_hash := calculate_transaction_hash sha t
    if (mp.transactions.map fun m => calculate_transaction_hash sha m.transaction).contains tx_hash then
      (Except.error ValidationError.DuplicateTransaction, { mp with seen := seen1 })
    else
      let mp1 : Mempool := { mp with
        transactions := insert_with_priority mp.transactions mempool_tx
        seen := seen1 }
      (Except.ok (), mp1.cleanup now)

end Mempool

/-- Mempool::apply_transaction_to_state (identical to the validator's
apply_transaction_to_state): debit the sender, credit the recipient. -/
def apply_transaction_to_state (t : Transaction) (state : UTXOState) : UTXOState :=
  (state.update_balance t.from_addr (-(t.amount : Int))).update_balance t.to_addr (t.amount : Int)

/-- The selection loop of Mempool::get_transactions_for_block. `cnt` is the
running `selected.len()`; each candidate is checked with a freshly created
validator (`TransactionValidator::new()`, empty seen set) against the
evolving temporary state. -/
def getTxAux (sha : String → String) (max_transactions : Nat) :
    List MempoolTransaction → UTXOState → Nat → List Transaction
  | [], _, _ => []
  | mempool_tx :: rest, temp_state, cnt =>
    if max_transactions ≤ cnt then []
    else
      match (validate_transaction sha [] mempool_tx.transaction temp_state).1 with
      | Except.ok _ =>
        mempool_tx.transaction ::
          getTxAux sha max_transactions rest
            (apply_transaction_to_state mempool_tx.transaction temp_state) (cnt + 1)
      | Except.error _ => getTxAux sha max_transactions rest temp_state cnt

namespace Mempool

/-- Mempool::get_transactions_for_block. -/
def get_transactions_for_block (sha : String → String) (mp : Mempool)
    (max_transactions : Nat) (utxo_state : UTXOState) : List Transaction :=
  getTxAux sha max_transactions mp.transactions utxo_state 0

end Mempool

/-! ## Genesis: src/blockchain/genesis.rs -/

/-- The 64-character all-zero genesis previous-hash used by
genesis_block_with_config. -/
def zeros64 : String :=
  "0000000000000000000000000000000000000000000000000000000000000000"

/-- create_coinbase_transaction: null sender address (40 zeros), optional
message carried in the signature field as UTF-8 bytes. -/
def create_coinbase_transaction (recipient : String) (amount : Nat) (message : Option String) :
    Transaction :=
  { from_addr := "0000000000000000000000000000000000000000"
    to_addr := recipient
    amount := amount
    signature :=
      (match message with
       | some m => m
       | none => "").toUTF8.toList.map UInt8.toNat }

/-- GenesisConfig::default() of src/blockchain/genesis.rs. -/
def defaultGenesisAllocations : List (String × Nat) :=
  [("1RustChainFoundation", 2100000), ("1EarlyInvestors", 1050000),
   ("1Development", 2100000), ("1Community", 15750000)]

/-- genesis_block_with_config on the default config: coinbase transactions
for the allocations, the genesis-message transaction, previous_hash of 64
zeros, nonce 0, height 0, the default timestamp. Block hashing is the
abstracted `hashFn`/`merkleFn` pair as in `Block.new`. -/
def genesis_block (hashFn : String → List Transaction → Nat → Nat → Nat → String)
    (merkleFn : List Transaction → String) : Block :=
  let transactions :=
    (defaultGenesisAllocations.map fun p => create_coinbase_transaction p.1 p.2 none) ++
    [create_coinbase_transaction "0000000000000000000000000000000000000000" 0
      (some "RustChain Genesis Block - A decentralized blockchain built in Rust")]
  Block.new hashFn merkleFn zeros64 transactions 0 1723804800 0

/-! ## Fork choice: src/consensus/fork_choice.rs -/

/-- ForkChoice: all known chains keyed by their tip hash, plus the current
best tip hash. -/
structure ForkChoice where
  chains : List (String × List Block)
  best_chain_hash : Option String
deriving DecidableEq, Repr

/-- Does a chain contain a block with the given hash
(`chain.blocks.iter().any(...)`)? -/
def containsBlock (c : List Block) (hash : String) : Bool :=
  c.any fun b => b.header.hash == hash

/-- The prefix-synthesis loop of ForkChoice::find_chain_with_tip: push
blocks up to and including the first one whose hash matches. -/
def chainUpTo : List Block → String → List Block
  | [], _ => []
  | b :: rest, hash =>
    if b.header.hash = hash then [b] else b :: chainUpTo rest hash

/-- The fallback scan of ForkChoice::find_chain_with_tip over all stored
chains (HashMap iteration modelled as list order). -/
def findChainAux : List (String × List Block) → String → Option (List Block)
  | [], _ => none
  | (_, c) :: rest, hash =>
    if containsBlock c hash then some (chainUpTo c hash) else findChainAux rest hash

namespace ForkChoice

/-- ForkChoice::new. -/
def new : ForkChoice := ⟨[], none⟩

/-- ForkChoice::with_genesis_chain: index a nonempty chain under its tip
hash and make it best; an empty chain leaves the new instance untouched. -/
def with_genesis_chain (c : List Block) : ForkChoice :=
  match c.getLast? with
  | some tip => ⟨[(tip.header.hash, c)], some tip.header.hash⟩
  | none => new

/-- ForkChoice::get_best_chain. -/
def get_best_chain (s : ForkChoice) : Option (List Block) :=
  match s.best_chain_hash with
  | some hash => alLookup s.chains hash
  | none => none

/-- ForkChoice::is_better_chain: strictly longer wins; on equal length the
newer tip timestamp wins; with no current best any chain wins. -/
def is_better_chain (s : ForkChoice) (c : List Block) : Bool :=
  match s.get_best_chain with
  | some current_best =>
    if c.length > current_best.length then true
    else if c.length = current_best.length then
      match c.getLast?, current_best.getLast? with
      | some new_tip, some current_tip =>
        new_tip.header.timestamp > current_tip.header.timestamp
      | _, _ => false
    else false
  | none => true

/-- ForkChoice::find_chain_with_tip: a directly stored chain with that tip
hash, or a synthesized prefix of a chain containing the block. -/
def find_chain_with_tip (s : ForkChoice) (tip_hash : String) : Option (List Block) :=
  match alLookup s.chains tip_hash with
  | some c => some c
  | none => findChainAux s.chains tip_hash

/-- ForkChoice::add_block. Returns the `Result<bool, String>` together with
the state after the call (unchanged on every error path, as in the
source). -/
def add_block (s : ForkChoice) (b : Block) : Except String Bool × ForkChoice :=
  let block_hash := b.header.hash
  let parent_hash := b.header.previous_hash
  if parent_hash = "0" then
    let chain := [b]
    let is_new_best := s.is_better_chain chain
    let chains1 := alInsert s.chains block_hash chain
    let best1 := if is_new_best then some block_hash else s.best_chain_hash
    (Except.ok is_new_best, ⟨chains1, best1⟩)
  else
    match s.find_chain_with_tip parent_hash with
    | some chain =>
      if ¬ Chain.validate_block chain b then
        (Except.error ("Invalid block: " ++ block_hash), s)
      else
        let chain1 := (Chain.add_block chain b).1
        let is_new_best := s.is_better_chain chain1
        let chains1 := alInsert s.chains block_hash chain1
        let chains2 := if parent_hash ≠ "0" then alRemove chains1 parent_hash else chains1
        let best1 := if is_new_best then some block_hash else s.best_chain_hash
        (Except.ok is_new_best, ⟨chains2, best1⟩)
    | none => (Except.error ("Parent block not found: " ++ parent_hash), s)

end ForkChoice

/-- Apply a sequence of ForkChoice::add_block calls, keeping the state of
each call whether it returned Ok or Err. -/
def applyBlocks : ForkChoice → List Block → ForkChoice
  | s, [] => s
  | s, b :: bs => applyBlocks (s.add_block b).2 bs

/-- A block is fresh for a state when its hash is not already a stored tip
key and differs from its own previous_hash. -/
def FreshBlock (s : ForkChoice) (b : Block) : Prop :=
  alLookup s.chains b.header.hash = none ∧ b.header.hash ≠ b.header.previous_hash

/-- Every block of a sequence is fresh for the state it is added to. -/
def FreshSeq : ForkChoice → List Block → Prop
  | _, [] => True
  | s, b :: bs => FreshBlock s b ∧ FreshSeq (s.add_block b).2 bs

/-- The best-chain part of the fork-choice invariant: whenever a best tip
hash is set, it keys a stored chain whose block count is maximal among all
stored chains. -/
def BestMaximal (s : ForkChoice) : Prop :=
  ∀ h, s.best_chain_hash = some h →
    ∃ c, alLookup s.chains h = some c ∧ ∀ p ∈ s.chains, p.2.length ≤ c.length

/-- The inductive invariant for ForkChoice: no best tip means no stored
chains, and a set best tip keys a maximal stored chain. -/
def ForkChoiceInv (s : ForkChoice) : Prop :=
  (s.best_chain_hash = none → s.chains = []) ∧ BestMaximal s

/-- An equal-length chain beats the current best only with a strictly newer
tip: what is_better_chain returning true forces at equal lengths. -/
def TieBreakOnly (s : ForkChoice) : Prop :=
  ∀ c current_best, s.get_best_chain = some current_best →
    s.is_better_chain c = true → c.length = current_best.length →
    ∃ new_tip, c.getLast? = some new_tip ∧
      ∃ current_tip, current_best.getLast? = some current_tip ∧
        new_tip.header.timestamp > current_tip.header.timestamp

/-! ## Predicates used by the claims -/

/-- Nondecreasing block timestamps along a slice. -/
def tsMono : List Block → Prop
  | b1 :: b2 :: rest => b1.header.timestamp ≤ b2.header.timestamp ∧ tsMono (b2 :: rest)
  | _ => True

/-- A transaction list validates sequentially from a snapshot: each entry
passes a fresh validator against the state left by its predecessors. -/
def SelValid (sha : String → String) : UTXOState → List Transaction → Prop
  | _, [] => True
  | st, t :: ts =>
    (validate_transaction sha [] t st).1 = Except.ok () ∧
      SelValid sha (apply_transaction_to_state t st) ts

/-- No address is bound to balance zero. -/
def NoZeroBalances (s : UTXOState) : Prop :=
  ∀ p ∈ s.balances, p.2 ≠ 0

/-- Is a fork-choice result Ok? -/
def isOkB : Except String Bool → Bool
  | Except.ok _ => true
  | Except.error _ => false

/-- A chain whose stored heights equal positions, as the chain data-model
invariant of the specification requires. -/
def HeightsAreIndices (c : List Block) : Prop :=
  ∀ (i : Nat) (h : i < c.length), (c.get ⟨i, h⟩).header.height = i

/-! ## Concrete inputs used by witnesses and counterexamples -/

/-- Witness block for the PoW validation claim: 64 lowercase hex digits
starting with two zeros. -/
def c1Block : Block :=
  ⟨⟨"", 0, 0, "", "0011111111111111111111111111111111111111111111111111111111111111", 0⟩, []⟩

/-- A genesis-style block (previous_hash "0") with tip hash "aa". -/
def c2G : Block := ⟨⟨"0", 1, 0, "", "aa", 0⟩, []⟩

/-- A block whose hash field equals its own previous_hash "aa": extending
the chain tipped by "aa" with it makes add_block insert and then remove
the very same key. -/
def c2Loop : Block := ⟨⟨"aa", 2, 0, "", "aa", 1⟩, []⟩

/-- Fresh genesis-style block for the fork-choice invariant witness. -/
def c2W : Block := ⟨⟨"0", 5, 0, "", "bb", 0⟩, []⟩

/-- Concrete stand-ins for the hash black boxes in the genesis
counterexample. -/
def c3Hash : String → List Transaction → Nat → Nat → Nat → String :=
  fun _ _ _ _ _ => "genesis-hash"

/-- Concrete merkle stand-in for the genesis counterexample. -/
def c3Merkle : List Transaction → String :=
  fun _ => "genesis-merkle"

/-- Witness block for the amended genesis claim: previous_hash "0". -/
def c3B : Block := ⟨⟨"0", 7, 0, "", "cc", 0⟩, []⟩

/-- Mining witness hash function: only nonce 1 meets a difficulty-2
target. -/
def c4Hash : String → List Transaction → Nat → Nat → Nat → String :=
  fun _ _ nonce _ _ => if nonce = 1 then "0000" else "ffff"

/-- Mining witness merkle stand-in. -/
def c4Merkle : List Transaction → String :=
  fun _ => "mr"

/-- The mining result the witness run produces. -/
def c4Result : MiningResult :=
  { block := Block.new c4Hash c4Merkle "p" [] 1 5 1
    nonce := 1
    hash := "0000"
    attempts := 2
    elapsed_ms := 0 }

/-- A single well-formed block for the chain re-append witness. -/
def c5B : Block := ⟨⟨"", 3, 0, "", "dd", 0⟩, []⟩

/-- Sha stand-in for the mempool selection scenario (injective on the
rendered transactions involved). -/
def c6sha : String → String := fun s => s

/-- The three scenario transfers. -/
def c6t1 : Transaction := ⟨"alice", "bob", 100, []⟩

/-- Second scenario transfer. -/
def c6t2 : Transaction := ⟨"alice", "charlie", 200, []⟩

/-- Third scenario transfer. -/
def c6t3 : Transaction := ⟨"alice", "david", 300, []⟩

/-- The scenario snapshot: alice holds 1000. -/
def c6state : UTXOState := ⟨[("alice", 1000)]⟩

/-- The scenario mempool: the three transfers submitted in order at the
same wall-clock second 100. -/
def c6pool : Mempool :=
  (((Mempool.new.add_transaction c6sha c6t1 100 c6state).2.add_transaction
      c6sha c6t2 100 c6state).2.add_transaction c6sha c6t3 100 c6state).2

/-- Difficulty-adjustment counterexample blocks: deltas average 2^62. -/
def c7b0 : Block := ⟨⟨"", 0, 0, "", "b0", 0⟩, []⟩

/-- Second counterexample block, timestamp 2^62. -/
def c7b1 : Block := ⟨⟨"", 4611686018427387904, 0, "", "b1", 1⟩, []⟩

/-- Difficulty-adjustment witness blocks: deltas average 100. -/
def c7w0 : Block := ⟨⟨"", 0, 0, "", "w0", 0⟩, []⟩

/-- Second witness block, timestamp 100. -/
def c7w1 : Block := ⟨⟨"", 100, 0, "", "w1", 1⟩, []⟩

/-- Sha stand-in for the signature-length counterexample. -/
def c8sha : String → String := fun _ => "h"

/-- A transaction carrying a 65-byte signature. -/
def c8long : Transaction := ⟨"alice", "bob", 50, List.replicate 65 1⟩

/-- A transaction carrying a 64-byte signature. -/
def c8ok : Transaction := ⟨"alice", "bob", 50, List.replicate 64 1⟩

/-- Sha stand-in for the empty-signature witness. -/
def c10sha : String → String := fun _ => "h"

/-- An empty-signature transaction between 3+-character addresses. -/
def c10t : Transaction := ⟨"alice", "bob", 50, []⟩


/-! ## Theorems -/

/-- Every lowercase hex digit passes the at-least-zero check. -/
theorem hexChars_ge_zero : hexChars.all (fun c => decide (¬ c < '0')) = true := by
  decide

/-- No lowercase hex digit is below the character 0. -/
theorem hex_not_lt_zero (c : Char) (hc : c ∈ hexChars) : ¬ (c < '0') :=
  of_decide_eq_true (List.all_eq_true.mp hexChars_ge_zero c hc)

/-- If a hex string is lexicographically below `d` zeros followed by
anything, its first `d` characters are all zeros. -/
theorem strLt_replicate_zero (d : Nat) (hash rest : List Char)
    (hhex : ∀ c ∈ hash, c ∈ hexChars)
    (hlt : strLt hash (List.replicate d '0' ++ rest) = true) :
    ∀ c ∈ hash.take d, c = '0' := by
  induction d generalizing hash rest with
  | zero => simp
  | succ d ih =>
    cases hash with
    | nil => simp
    | cons a as =>
      rw [List.replicate_succ, List.cons_append] at hlt
      simp only [strLt] at hlt
      have hnlt : ¬ (a < '0') := hex_not_lt_zero a (hhex a (List.mem_cons_self a as))
      rw [if_neg hnlt] at hlt
      by_cases heq : a = '0'
      · rw [if_pos heq] at hlt
        intro c hc
        rw [List.take_succ_cons] at hc
        rcases List.mem_cons.mp hc with rfl | hc2
        · exact heq
        · exact ih as rest (fun x hx => hhex x (List.mem_cons_of_mem a hx)) hlt c hc2
      · rw [if_neg heq] at hlt
        exact absurd hlt (by simp)

/-- C1: for every difficulty `1 ≤ d ≤ 64` and every block whose header hash
is a 64-character lowercase-hex string, if ProofOfWork::validate_block at
difficulty `d` accepts the block then the first `d` characters of the hash
are all 0. -/
theorem pow_validate_block_leading_zeros (d : Nat) (b : Block)
    (hd1 : 1 ≤ d) (hd64 : d ≤ 64)
    (hlen : b.header.hash.data.length = 64)
    (hhex : ∀ c ∈ b.header.hash.data, c ∈ hexChars)
    (hv : ProofOfWork.validate_block d b = true) :
    ∀ c ∈ b.header.hash.data.take d, c = '0' :=
  strLt_replicate_zero d b.header.hash.data (List.replicate (64 - d) 'f') hhex hv

/-- Witness for C1 at difficulty 2 and a concrete accepted block. -/
theorem pow_validate_block_leading_zeros_witness :
    (1 ≤ 2 ∧ 2 ≤ 64 ∧ c1Block.header.hash.data.length = 64 ∧
      (∀ c ∈ c1Block.header.hash.data, c ∈ hexChars) ∧
      ProofOfWork.validate_block 2 c1Block = true) ∧
    ∀ c ∈ c1Block.header.hash.data.take 2, c = '0' :=
  ⟨⟨by decide, by decide, by decide, by decide, by decide⟩,
    pow_validate_block_leading_zeros 2 c1Block (by decide) (by decide) (by decide)
      (by decide) (by decide)⟩

/-- The nonce loop invariant: started with `attempts = nonce`, a successful
search returns the first satisfying nonce at or after the start, the block
built from it, and an attempts count of one more than the found nonce. -/
theorem mineAux_spec (hashFn : String → List Transaction → Nat → Nat → Nat → String)
    (merkleFn : List Transaction → String) (target : List Char)
    (prev : String) (txs : List Transaction) (height ts : Nat) :
    ∀ (fuel nonce attempts : Nat) (r : MiningResult),
      attempts = nonce →
      mineAux hashFn merkleFn target prev txs height ts fuel nonce attempts = some r →
      nonce ≤ r.nonce ∧
      r.block = Block.new hashFn merkleFn prev txs r.nonce ts height ∧
      r.hash = r.block.header.hash ∧
      r.attempts = r.nonce + 1 ∧
      validate_proof (Block.new hashFn merkleFn prev txs r.nonce ts height).header.hash.data
        target = true ∧
      ∀ m, nonce ≤ m → m < r.nonce →
        validate_proof (Block.new hashFn merkleFn prev txs m ts height).header.hash.data
          target = false := by
  intro fuel
  induction fuel with
  | zero => intro nonce attempts r _ hsome; simp [mineAux] at hsome
  | succ fuel ih =>
    intro nonce attempts r ha hsome
    simp only [mineAux] at hsome
    by_cases hval :
        validate_proof
          (Block.new hashFn merkleFn prev txs nonce ts height).header.hash.data target = true
    · rw [if_pos hval] at hsome
      have hr := (Option.some.injEq _ _).mp hsome
      subst ha
      subst hr
      refine ⟨Nat.le_refl _, rfl, rfl, rfl, hval, ?_⟩
      intro m hm1 hm2
      exact absurd hm1 (Nat.not_le_of_lt hm2)
    · rw [if_neg hval] at hsome
      have h2 := ih (nonce + 1) (attempts + 1) r (by omega) hsome
      refine ⟨Nat.le_of_succ_le h2.1, h2.2.1, h2.2.2.1, h2.2.2.2.1, h2.2.2.2.2.1, ?_⟩
      intro m hm1 hm2
      rcases Nat.eq_or_lt_of_le hm1 with rfl | hlt
      · exact Bool.not_eq_true _ ▸ eq_false_of_ne_true hval
      · exact h2.2.2.2.2.2 m hlt hm2

/-- C4: a successful ProofOfWork::mine_block run returns a block built from
exactly the given previous hash, transactions, height and the single entry
timestamp, at the smallest nonce whose block hash meets the difficulty
target, with attempts = nonce + 1. -/
theorem mine_block_spec (hashFn : String → List Transaction → Nat → Nat → Nat → String)
    (merkleFn : List Transaction → String) (difficulty : Nat)
    (prev : String) (txs : List Transaction) (height ts : Nat) (r : MiningResult)
    (h : ProofOfWork.mine_block hashFn merkleFn difficulty prev txs height ts = some r) :
    r.block = Block.new hashFn merkleFn prev txs r.nonce ts height ∧
    r.hash = r.block.header.hash ∧
    r.attempts = r.nonce + 1 ∧
    ProofOfWork.validate_block difficulty r.block = true ∧
    ∀ m < r.nonce,
      ProofOfWork.validate_block difficulty (Block.new hashFn merkleFn prev txs m ts height)
        = false := by
  have h2 := mineAux_spec hashFn merkleFn (calculate_target difficulty) prev txs height ts
    (2 ^ 64 - 1) 0 0 r rfl h
  refine ⟨h2.2.1, h2.2.2.1, h2.2.2.2.1, ?_, ?_⟩
  · rw [ProofOfWork.validate_block, h2.2.1]
    exact h2.2.2.2.2.1
  · intro m hm
    exact h2.2.2.2.2.2 m (Nat.zero_le m) hm

/-- Witness for C4: with a hash function that first meets a difficulty-2
target at nonce 1, mining returns that nonce with 2 attempts. -/
theorem mine_block_spec_witness :
    ProofOfWork.mine_block c4Hash c4Merkle 2 "p" [] 1 5 = some c4Result ∧
    (c4Result.block = Block.new c4Hash c4Merkle "p" [] c4Result.nonce 5 1 ∧
     c4Result.hash = c4Result.block.header.hash ∧
     c4Result.attempts = c4Result.nonce + 1 ∧
     ProofOfWork.validate_block 2 c4Result.block = true ∧
     ∀ m < c4Result.nonce,
       ProofOfWork.validate_block 2 (Block.new c4Hash c4Merkle "p" [] m 5 1) = false) :=
  ⟨by decide, mine_block_spec c4Hash c4Merkle 2 "p" [] 1 5 c4Result (by decide)⟩

/-- C5: re-appending a block already on a chain whose stored heights equal
positions (the chain data-model invariant) is rejected by Chain::add_block
and leaves the chain unchanged: its height is strictly below the block
count, so validation fails. -/
theorem chain_add_block_rejects_existing (c : List Block) (b : Block)
    (hw : HeightsAreIndices c) (hb : b ∈ c) :
    Chain.add_block c b = (c, false) := by
  obtain ⟨i, hi⟩ := List.mem_iff_get.mp hb
  have hh : b.header.height = i := by rw [← hi]; exact hw i i.isLt
  have hlt : b.header.height < c.length := by rw [hh]; exact i.isLt
  have hvb : Chain.validate_block c b = false := by
    rw [Chain.validate_block]
    have hne : (b.header.height == c.length) = false := by
      simp [Nat.ne_of_lt hlt]
    simp [hne]
  rw [Chain.add_block, hvb]
  simp

/-- Witness for C5: re-adding the sole block of a one-block chain fails and
changes nothing. -/
theorem chain_add_block_rejects_existing_witness :
    (HeightsAreIndices [c5B] ∧ c5B ∈ [c5B]) ∧
    Chain.add_block [c5B] c5B = ([c5B], false) :=
  ⟨⟨by intro i h; obtain rfl : i = 0 := Nat.lt_one_iff.mp h; rfl, by decide⟩,
    chain_add_block_rejects_existing [c5B] c5B
      (by intro i h; obtain rfl : i = 0 := Nat.lt_one_iff.mp h; rfl) (by decide)⟩

/-- C7 (amended): for slices of at least two blocks with nondecreasing
timestamps, a positive difficulty below the u32 wrap point and a positive
target time below the u64 wrap point of its doubling, adjust_difficulty
increments on a mean below target/2, decrements to no less than 1 on a
mean above twice the target, and otherwise changes nothing. -/
theorem adjust_difficulty_spec (d t : Nat) (bs : List Block)
    (hlen : 2 ≤ bs.length) (hmono : tsMono bs) (hd1 : 1 ≤ d) (hd : d + 1 < 2 ^ 32)
    (ht1 : 1 ≤ t) (ht : 2 * t < 2 ^ 64) :
    ProofOfWork.adjust_difficulty d bs t =
      if sumDeltas bs / (bs.length - 1) < t / 2 then d + 1
      else if sumDeltas bs / (bs.length - 1) > t * 2 then max 1 (d - 1)
      else d := by
  have hlen2 : ¬ (bs.length < 2) := by omega
  have h1 : (d + 1) % 2 ^ 32 = d + 1 := Nat.mod_eq_of_lt hd
  have h2 : t * 2 % 2 ^ 64 = t * 2 := Nat.mod_eq_of_lt (by omega)
  simp only [ProofOfWork.adjust_difficulty, if_neg hlen2, h1, h2]
  by_cases hfast : sumDeltas bs / (bs.length - 1) < t / 2
  · rw [if_pos hfast, if_pos hfast]
  · rw [if_neg hfast, if_neg hfast]
    by_cases hslow : sumDeltas bs / (bs.length - 1) > t * 2
    · rw [if_pos hslow, if_pos hslow]
      rcases Nat.lt_or_ge 1 d with hgt | hle
      · rw [if_pos hgt]
        omega
      · rw [if_neg (by omega)]
        omega
    · rw [if_neg hslow, if_neg hslow]

/-- Counterexample for C7 as stated: at target time 2^63 the u64 product
`target * 2` wraps to 0, so a mean of 2^62 (neither below target/2 nor
above 2·target) still decrements the difficulty from 5 to 4. -/
theorem adjust_difficulty_overflow_counterexample :
    sumDeltas [c7b0, c7b1] / 1 = 2 ^ 62 ∧
    ¬ (2 ^ 62 < 2 ^ 63 / 2) ∧
    ¬ (2 ^ 62 > 2 ^ 63 * 2) ∧
    ProofOfWork.adjust_difficulty 5 [c7b0, c7b1] (2 ^ 63) = 4 :=
  ⟨by decide, by decide, by decide, by decide⟩

/-- Witness for the amended C7 on a slow two-block slice at target 10. -/
theorem adjust_difficulty_spec_witness :
    (2 ≤ ([c7w0, c7w1] : List Block).length ∧ tsMono [c7w0, c7w1] ∧
      1 ≤ 3 ∧ 3 + 1 < 2 ^ 32 ∧ 1 ≤ 10 ∧ 2 * 10 < 2 ^ 64) ∧
    ProofOfWork.adjust_difficulty 3 [c7w0, c7w1] 10 =
      (if sumDeltas [c7w0, c7w1] / (([c7w0, c7w1] : List Block).length - 1) < 10 / 2
       then 3 + 1
       else if sumDeltas [c7w0, c7w1] / (([c7w0, c7w1] : List Block).length - 1) > 10 * 2
       then max 1 (3 - 1)
       else 3) :=
  ⟨⟨by decide, ⟨by decide, trivial⟩, by decide, by decide, by decide, by decide⟩,
    adjust_difficulty_spec 3 10 [c7w0, c7w1] (by decide) ⟨by decide, trivial⟩
      (by decide) (by decide) (by decide) (by decide)⟩

/-- Looking up the key just inserted yields the inserted value. -/
theorem alLookup_insert_self {α : Type} (l : List (String × α)) (k : String) (v : α) :
    alLookup (alInsert l k v) k = some v := by
  induction l with
  | nil => simp [alInsert, alLookup]
  | cons p rest ih =>
    by_cases hp : p.1 = k
    · rw [show alInsert (p :: rest) k v = (k, v) :: rest by
        cases p; simp_all [alInsert]]
      simp [alLookup]
    · rw [show alInsert (p :: rest) k v = p :: alInsert rest k v by
        cases p; simp_all [alInsert]]
      cases p with
      | mk k0 w => simp only [alLookup]; rw [if_neg hp]; exact ih

/-- Inserting one key does not change lookups of another. -/
theorem alLookup_insert_ne {α : Type} (l : List (String × α)) (k : String) (v : α)
    (h : String) (hne : h ≠ k) : alLookup (alInsert l k v) h = alLookup l h := by
  induction l with
  | nil =>
    simp only [alInsert, alLookup]
    rw [if_neg (fun hh => hne hh.symm)]
  | cons p rest ih =>
    cases p with
    | mk k0 w =>
      by_cases hp : k0 = k
      · subst hp
        simp only [alInsert, if_pos rfl, alLookup]
        rw [if_neg (fun hh => hne hh.symm), if_neg (fun hh => hne hh.symm)]
      · simp only [alInsert, if_neg hp, alLookup]
        by_cases hh : k0 = h
        · rw [if_pos hh, if_pos hh]
        · rw [if_neg hh, if_neg hh]; exact ih

/-- Looking up a removed key yields nothing. -/
theorem alLookup_remove_self {α : Type} (l : List (String × α)) (k : String) :
    alLookup (alRemove l k) k = none := by
  induction l with
  | nil => rfl
  | cons p rest ih =>
    cases p with
    | mk k0 w =>
      by_cases hp : k0 = k
      · simp only [alRemove, List.filter] at ih ⊢
        rw [show ((k0, w).1 != k) = false by simp [hp]]
        exact ih
      · simp only [alRemove, List.filter] at ih ⊢
        rw [show ((k0, w).1 != k) = true by simp [hp]]
        simp only [alLookup, if_neg hp]
        exact ih

/-- Removing one key does not change lookups of another. -/
theorem alLookup_remove_ne {α : Type} (l : List (String × α)) (k : String)
    (h : String) (hne : h ≠ k) : alLookup (alRemove l k) h = alLookup l h := by
  induction l with
  | nil => rfl
  | cons p rest ih =>
    cases p with
    | mk k0 w =>
      by_cases hp : k0 = k
      · simp only [alRemove, List.filter] at ih ⊢
        rw [show ((k0, w).1 != k) = false by simp [hp]]
        rw [ih]
        simp only [alLookup]
        rw [if_neg (by rw [hp]; exact fun hh => hne hh.symm)]
      · simp only [alRemove, List.filter] at ih ⊢
        rw [show ((k0, w).1 != k) = true by simp [hp]]
        simp only [alLookup]
        by_cases hh : k0 = h
        · rw [if_pos hh, if_pos hh]
        · rw [if_neg hh, if_neg hh]; exact ih

/-- Members after an insert were members before, or are the new binding. -/
theorem mem_alInsert {α : Type} (l : List (String × α)) (k : String) (v : α)
    (p : String × α) (hp : p ∈ alInsert l k v) : p ∈ l ∨ p = (k, v) := by
  induction l with
  | nil => simp [alInsert] at hp; right; exact hp
  | cons q rest ih =>
    cases q with
    | mk k0 w =>
      by_cases hq : k0 = k
      · simp only [alInsert, if_pos hq] at hp
        rcases List.mem_cons.mp hp with rfl | hp2
        · right; rfl
        · left; exact List.mem_cons_of_mem _ hp2
      · simp only [alInsert, if_neg hq] at hp
        rcases List.mem_cons.mp hp with rfl | hp2
        · left; exact List.mem_cons_self _ _
        · rcases ih hp2 with hin | hnew
          · left; exact List.mem_cons_of_mem _ hin
          · right; exact hnew

/-- Members after a removal were members before. -/
theorem mem_alRemove {α : Type} (l : List (String × α)) (k : String)
    (p : String × α) (hp : p ∈ alRemove l k) : p ∈ l :=
  List.mem_of_mem_filter hp

/-- Wrapping is the identity on the i64 range. -/
theorem wrapI64_eq_self (x : Int) (h1 : -2 ^ 63 ≤ x) (h2 : x < 2 ^ 63) :
    wrapI64 x = x := by
  unfold wrapI64
  omega

/-- NoZeroBalances is preserved by update_balance. -/
theorem NoZeroBalances_update (s : UTXOState) (a : String) (d : Int)
    (h : NoZeroBalances s) : NoZeroBalances (s.update_balance a d) := by
  rw [UTXOState.update_balance]
  by_cases hz :
      (max (wrapI64 (toI64 (s.get_balance a) + d)) 0).toNat = 0
  · rw [if_pos hz]
    intro p hp
    exact h p (mem_alRemove s.balances a p hp)
  · rw [if_neg hz]
    intro p hp
    rcases mem_alInsert s.balances a _ p hp with hin | rfl
    · exact h p hin
    · exact hz

/-- NoZeroBalances is preserved by set_balance. -/
theorem NoZeroBalances_set (s : UTXOState) (a : String) (v : Nat)
    (h : NoZeroBalances s) : NoZeroBalances (s.set_balance a v) := by
  rw [UTXOState.set_balance]
  by_cases hz : v = 0
  · rw [if_pos hz]
    intro p hp
    exact h p (mem_alRemove s.balances a p hp)
  · rw [if_neg hz]
    intro p hp
    rcases mem_alInsert s.balances a _ p hp with hin | rfl
    · exact h p hin
    · exact hz

/-- NoZeroBalances is preserved by every operation sequence. -/
theorem NoZeroBalances_applyOps (ops : List BalanceOp) :
    ∀ s : UTXOState, NoZeroBalances s → NoZeroBalances (applyBalanceOps s ops) := by
  induction ops with
  | nil => intro s h; exact h
  | cons op rest ih =>
    intro s h
    cases op with
    | update a d => exact ih _ (NoZeroBalances_update s a d h)
    | set a v => exact ih _ (NoZeroBalances_set s a v h)

/-- C9 (amended): update_balance realizes max(0, previous + delta) whenever
the previous balance is below 2^63 and the mathematical sum stays below
2^63 (outside that range the u64-to-i64 cast or the i64 addition wraps);
and no sequence of update_balance / set_balance calls ever stores a zero
balance. -/
theorem update_balance_spec :
    (∀ (s : UTXOState) (a : String) (d : Int),
      s.get_balance a < 2 ^ 63 → (s.get_balance a : Int) + d < 2 ^ 63 → -2 ^ 63 ≤ d →
      (s.update_balance a d).get_balance a =
        (max ((s.get_balance a : Int) + d) 0).toNat) ∧
    (∀ ops : List BalanceOp, NoZeroBalances (applyBalanceOps UTXOState.new ops)) := by
  constructor
  · intro s a d h1 h2 h3
    have hcur : toI64 (s.get_balance a) = (s.get_balance a : Int) := by
      rw [toI64, if_pos]
      exact_mod_cast h1
    have hw : wrapI64 ((s.get_balance a : Int) + d) = (s.get_balance a : Int) + d := by
      refine wrapI64_eq_self _ ?_ h2
      have hn : (0 : Int) ≤ (s.get_balance a : Int) := Int.natCast_nonneg _
      omega
    simp only [UTXOState.update_balance, hcur, hw]
    by_cases hz : (max ((s.get_balance a : Int) + d) 0).toNat = 0
    · rw [if_pos hz, hz]
      simp [UTXOState.get_balance, alLookup_remove_self]
    · rw [if_neg hz]
      simp [UTXOState.get_balance, alLookup_insert_self]
  · intro ops
    refine NoZeroBalances_applyOps ops UTXOState.new ?_
    intro p hp
    simp [UTXOState.new] at hp

/-- Counterexample for C9 as stated: a stored balance of 2^63 reinterpreted
as i64 is negative, so an update by delta 0 saturates to zero instead of
keeping 2^63. -/
theorem update_balance_overflow_counterexample :
    ((UTXOState.new.set_balance "a" (2 ^ 63)).update_balance "a" 0).get_balance "a" = 0 ∧
    (max (((UTXOState.new.set_balance "a" (2 ^ 63)).get_balance "a" : Int) + 0) 0).toNat
      = 2 ^ 63 :=
  ⟨by decide, by decide⟩

/-- Witness for the amended C9 on an empty state and delta 5. -/
theorem update_balance_spec_witness :
    (UTXOState.new.get_balance "a" < 2 ^ 63 ∧
      (UTXOState.new.get_balance "a" : Int) + 5 < 2 ^ 63 ∧ -2 ^ 63 ≤ (5 : Int)) ∧
    (UTXOState.new.update_balance "a" 5).get_balance "a" =
      (max ((UTXOState.new.get_balance "a" : Int) + 5) 0).toNat ∧
    NoZeroBalances (applyBalanceOps UTXOState.new [BalanceOp.update "a" 5]) :=
  ⟨⟨by decide, by decide, by decide⟩,
    ⟨update_balance_spec.1 UTXOState.new "a" 5 (by decide) (by decide) (by decide),
      update_balance_spec.2 [BalanceOp.update "a" 5]⟩⟩

/-- C8 (amended): a non-empty signature passes validate_signature exactly
when it is 64 bytes long (given that the hash black box never returns the
empty string, as sha256 hex output never does); any other non-empty length
is rejected with InvalidSignature. -/
theorem validate_signature_length_spec (sha : String → String) (t : Transaction)
    (hne : t.signature ≠ [])
    (hsha : sha (t.from_addr ++ ":" ++ t.to_addr ++ ":" ++ toString t.amount) ≠ "") :
    (t.signature.length ≠ 64 →
      validate_signature sha t = Except.error ValidationError.InvalidSignature) ∧
    (t.signature.length = 64 → validate_signature sha t = Except.ok ()) := by
  simp only [validate_signature, if_neg hne]
  constructor
  · intro h64
    by_cases h32 : t.signature.length < 32
    · rw [if_pos h32]
    · rw [if_neg h32, if_pos h64]
  · intro h64
    rw [if_neg (by omega : ¬ t.signature.length < 32),
      if_neg (by simp [h64] : ¬ t.signature.length ≠ 64), if_neg hsha]

/-- Counterexample for C8 as stated: a 65-byte signature is non-empty and
at least 64 bytes long, yet validate_signature rejects it. -/
theorem validate_signature_65_rejected :
    c8long.signature ≠ [] ∧ c8long.signature.length = 65 ∧
    validate_signature c8sha c8long = Except.error ValidationError.InvalidSignature :=
  ⟨by decide, by decide, rfl⟩

/-- Witness for the amended C8 on a 64-byte signature. -/
theorem validate_signature_length_spec_witness :
    (c8ok.signature ≠ [] ∧
      c8sha (c8ok.from_addr ++ ":" ++ c8ok.to_addr ++ ":" ++ toString c8ok.amount) ≠ "") ∧
    ((c8ok.signature.length ≠ 64 →
       validate_signature c8sha c8ok = Except.error ValidationError.InvalidSignature) ∧
     (c8ok.signature.length = 64 → validate_signature c8sha c8ok = Except.ok ())) :=
  ⟨⟨by decide, by decide⟩,
    validate_signature_length_spec c8sha c8ok (by decide) (by decide)⟩

/-- C10: an empty-signature transaction between non-empty addresses is
rejected by validate_signature with InvalidSignature exactly when either
address is shorter than 3 characters, and accepted (demo mode) when both
are at least 3 characters long. -/
theorem validate_signature_empty_spec (sha : String → String) (t : Transaction)
    (hsig : t.signature = []) (hfrom : t.from_addr ≠ "") (hto : t.to_addr ≠ "") :
    (t.from_addr.length < 3 ∨ t.to_addr.length < 3 →
      validate_signature sha t = Except.error ValidationError.InvalidSignature) ∧
    (3 ≤ t.from_addr.length → 3 ≤ t.to_addr.length →
      validate_signature sha t = Except.ok ()) := by
  simp only [validate_signature, if_pos hsig]
  constructor
  · intro hshort
    rw [if_pos hshort]
  · intro h1 h2
    rw [if_neg (by omega : ¬ (t.from_addr.length < 3 ∨ t.to_addr.length < 3))]

/-- Witness for C10 on an empty-signature alice-to-bob transfer. -/
theorem validate_signature_empty_spec_witness :
    (c10t.signature = [] ∧ c10t.from_addr ≠ "" ∧ c10t.to_addr ≠ "") ∧
    ((c10t.from_addr.length < 3 ∨ c10t.to_addr.length < 3 →
       validate_signature c10sha c10t = Except.error ValidationError.InvalidSignature) ∧
     (3 ≤ c10t.from_addr.length → 3 ≤ c10t.to_addr.length →
       validate_signature c10sha c10t = Except.ok ())) :=
  ⟨⟨rfl, by decide, by decide⟩,
    validate_signature_empty_spec c10sha c10t rfl (by decide) (by decide)⟩

/-- The selection loop returns at most the remaining budget. -/
theorem getTxAux_length (sha : String → String) (maxTx : Nat) :
    ∀ (l : List MempoolTransaction) (st : UTXOState) (cnt : Nat),
      (getTxAux sha maxTx l st cnt).length ≤ maxTx - cnt := by
  intro l
  induction l with
  | nil => intro st cnt; simp [getTxAux]
  | cons m rest ih =>
    intro st cnt
    simp only [getTxAux]
    by_cases hcnt : maxTx ≤ cnt
    · rw [if_pos hcnt]; simp
    · rw [if_neg hcnt]
      cases hv : (validate_transaction sha [] m.transaction st).1 with
      | ok u =>
        have h2 := ih (apply_transaction_to_state m.transaction st) (cnt + 1)
        simp only [List.length_cons]
        omega
      | error e => exact Nat.le_trans (ih st cnt) (Nat.le_refl _)

/-- The selection loop returns a subsequence of the scanned pool order. -/
theorem getTxAux_sublist (sha : String → String) (maxTx : Nat) :
    ∀ (l : List MempoolTransaction) (st : UTXOState) (cnt : Nat),
      List.Sublist (getTxAux sha maxTx l st cnt) (l.map fun m => m.transaction) := by
  intro l
  induction l with
  | nil => intro st cnt; simp [getTxAux]
  | cons m rest ih =>
    intro st cnt
    simp only [getTxAux, List.map_cons]
    by_cases hcnt : maxTx ≤ cnt
    · rw [if_pos hcnt]; exact List.nil_sublist _
    · rw [if_neg hcnt]
      cases hv : (validate_transaction sha [] m.transaction st).1 with
      | ok u => exact List.Sublist.cons₂ _ (ih _ _)
      | error e => exact List.Sublist.cons _ (ih _ _)

/-- Every selected transaction validates against the snapshot advanced by
the previously selected ones. -/
theorem getTxAux_selValid (sha : String → String) (maxTx : Nat) :
    ∀ (l : List MempoolTransaction) (st : UTXOState) (cnt : Nat),
      SelValid sha st (getTxAux sha maxTx l st cnt) := by
  intro l
  induction l with
  | nil => intro st cnt; simp [getTxAux, SelValid]
  | cons m rest ih =>
    intro st cnt
    simp only [getTxAux]
    by_cases hcnt : maxTx ≤ cnt
    · rw [if_pos hcnt]; exact trivial
    · rw [if_neg hcnt]
      cases hv : (validate_transaction sha [] m.transaction st).1 with
      | ok u => exact ⟨hv, ih _ _⟩
      | error e => exact ih st cnt

set_option maxRecDepth 4000 in
/-- C6: get_transactions_for_block scans the pool in order and returns, in
that order, at most the requested number of transactions, each validating
against the snapshot after the effects of the previously selected ones;
and in the concrete scenario (alice holding 1000; equal-priority transfers
of 100, 200, 300 submitted in that order) a limit of 2 selects exactly the
100 and 200 transfers in insertion order. -/
theorem get_transactions_for_block_spec :
    (∀ (sha : String → String) (mp : Mempool) (maxTx : Nat) (st : UTXOState),
      (mp.get_transactions_for_block sha maxTx st).length ≤ maxTx ∧
      List.Sublist (mp.get_transactions_for_block sha maxTx st)
        (mp.transactions.map fun m => m.transaction) ∧
      SelValid sha st (mp.get_transactions_for_block sha maxTx st)) ∧
    (Mempool.new.add_transaction c6sha c6t1 100 c6state).1 = Except.ok () ∧
    ((Mempool.new.add_transaction c6sha c6t1 100 c6state).2.add_transaction
        c6sha c6t2 100 c6state).1 = Except.ok () ∧
    (((Mempool.new.add_transaction c6sha c6t1 100 c6state).2.add_transaction
        c6sha c6t2 100 c6state).2.add_transaction c6sha c6t3 100 c6state).1 = Except.ok () ∧
    c6pool.transactions.map (fun m => m.transaction) = [c6t1, c6t2, c6t3] ∧
    c6pool.get_transactions_for_block c6sha 2 c6state = [c6t1, c6t2] := by
  refine ⟨?_, rfl, rfl, rfl, rfl, rfl⟩
  intro sha mp maxTx st
  refine ⟨?_, getTxAux_sublist sha maxTx mp.transactions st 0,
    getTxAux_selValid sha maxTx mp.transactions st 0⟩
  show (getTxAux sha maxTx mp.transactions st 0).length ≤ maxTx
  have h := getTxAux_length sha maxTx mp.transactions st 0
  omega

/-- C3 (amended): ForkChoice::add_block special-cases exactly the blocks
whose previous_hash is the one-character string "0": for those it returns
Ok, inserts the one-block chain under the block hash, and updates the best
tip exactly when the new chain strictly improves on the current best. -/
theorem add_block_genesis_spec (s : ForkChoice) (b : Block)
    (hprev : b.header.previous_hash = "0") :
    (s.add_block b).1 = Except.ok (s.is_better_chain [b]) ∧
    (s.add_block b).2.chains = alInsert s.chains b.header.hash [b] ∧
    (s.add_block b).2.best_chain_hash =
      (if s.is_better_chain [b] then some b.header.hash else s.best_chain_hash) := by
  simp only [ForkChoice.add_block, hprev, if_pos rfl]
  exact ⟨rfl, rfl, rfl⟩

/-- Witness for the amended C3 on an empty fork choice. -/
theorem add_block_genesis_spec_witness :
    c3B.header.previous_hash = "0" ∧
    ((ForkChoice.new.add_block c3B).1 = Except.ok (ForkChoice.new.is_better_chain [c3B]) ∧
     (ForkChoice.new.add_block c3B).2.chains =
       alInsert ForkChoice.new.chains c3B.header.hash [c3B] ∧
     (ForkChoice.new.add_block c3B).2.best_chain_hash =
       (if ForkChoice.new.is_better_chain [c3B] then some c3B.header.hash
        else ForkChoice.new.best_chain_hash)) :=
  ⟨rfl, add_block_genesis_spec ForkChoice.new c3B rfl⟩

/-- Counterexample for C3 as stated: the block built by genesis_block()
carries the 64-character all-zero previous_hash, which add_block does not
treat as the genesis sentinel; on a fresh fork choice the call returns an
error and changes nothing. -/
theorem genesis_block_not_special_cased :
    (genesis_block c3Hash c3Merkle).header.previous_hash = zeros64 ∧
    isOkB (ForkChoice.new.add_block (genesis_block c3Hash c3Merkle)).1 = false ∧
    (ForkChoice.new.add_block (genesis_block c3Hash c3Merkle)).2 = ForkChoice.new :=
  ⟨rfl, rfl, rfl⟩

/-- A better chain is at least as long as the current best. -/
theorem is_better_chain_length (s : ForkChoice) (c cur : List Block)
    (hcur : s.get_best_chain = some cur) (hb : s.is_better_chain c = true) :
    cur.length ≤ c.length := by
  simp only [ForkChoice.is_better_chain, hcur] at hb
  by_cases h1 : c.length > cur.length
  · omega
  · rw [if_neg h1] at hb
    by_cases h2 : c.length = cur.length
    · omega
    · rw [if_neg h2] at hb
      exact absurd hb (by simp)

/-- A chain that fails to beat the current best is at most as long. -/
theorem not_better_chain_length (s : ForkChoice) (c cur : List Block)
    (hcur : s.get_best_chain = some cur) (hb : s.is_better_chain c = false) :
    c.length ≤ cur.length := by
  simp only [ForkChoice.is_better_chain, hcur] at hb
  by_cases h1 : c.length > cur.length
  · rw [if_pos h1] at hb
    exact absurd hb (by simp)
  · omega

/-- A strictly longer chain always beats the current best. -/
theorem is_better_chain_of_longer (s : ForkChoice) (c cur : List Block)
    (hcur : s.get_best_chain = some cur) (hlen : cur.length < c.length) :
    s.is_better_chain c = true := by
  simp only [ForkChoice.is_better_chain, hcur]
  rw [if_pos hlen]

/-- An equal-length chain beats the current best only via a strictly newer
tip timestamp. -/
theorem is_better_chain_tiebreak (s : ForkChoice) (c cur : List Block)
    (hcur : s.get_best_chain = some cur) (hb : s.is_better_chain c = true)
    (hlen : c.length = cur.length) :
    ∃ nt, c.getLast? = some nt ∧ ∃ ct, cur.getLast? = some ct ∧
      nt.header.timestamp > ct.header.timestamp := by
  simp only [ForkChoice.is_better_chain, hcur] at hb
  rw [if_neg (by omega : ¬ c.length > cur.length), if_pos hlen] at hb
  cases hnt : c.getLast? with
  | none =>
    rw [hnt] at hb
    cases hct : cur.getLast? with
    | none => rw [hct] at hb; exact absurd hb (by simp)
    | some ct => rw [hct] at hb; exact absurd hb (by simp)
  | some nt =>
    cases hct : cur.getLast? with
    | none => rw [hnt, hct] at hb; exact absurd hb (by simp)
    | some ct =>
      rw [hnt, hct] at hb
      exact ⟨nt, rfl, ct, rfl, of_decide_eq_true hb⟩

/-- TieBreakOnly holds of every fork-choice state. -/
theorem tieBreakOnly_all (s : ForkChoice) : TieBreakOnly s :=
  fun c cur hcur hb hlen => is_better_chain_tiebreak s c cur hcur hb hlen

/-- The fork-choice invariant holds of a fresh instance. -/
theorem ForkChoiceInv_new : ForkChoiceInv ForkChoice.new :=
  ⟨fun _ => rfl, fun _ hh => Option.noConfusion hh⟩

/-- The fork-choice invariant holds after with_genesis_chain. -/
theorem ForkChoiceInv_with_genesis (c : List Block) :
    ForkChoiceInv (ForkChoice.with_genesis_chain c) := by
  rw [ForkChoice.with_genesis_chain]
  cases hc : c.getLast? with
  | none => exact ForkChoiceInv_new
  | some tip =>
    constructor
    · intro hn
      exact Option.noConfusion hn
    · intro h hh
      injection hh with hh
      subst hh
      refine ⟨c, by simp [alLookup], ?_⟩
      intro p hp
      rcases List.mem_singleton.mp hp with rfl
      exact Nat.le_refl _

/-- One add_block call preserves the fork-choice invariant, provided the
incoming block's hash is not already a stored tip key and differs from its
own previous_hash. -/
theorem ForkChoiceInv_step (s : ForkChoice) (b : Block)
    (hinv : ForkChoiceInv s) (hf : FreshBlock s b) :
    ForkChoiceInv (s.add_block b).2 := by
  obtain ⟨hnone, hmax⟩ := hinv
  obtain ⟨hfresh, hloop⟩ := hf
  by_cases hprev : b.header.previous_hash = "0"
  · simp only [ForkChoice.add_block]
    rw [if_pos hprev]
    by_cases hbet : s.is_better_chain [b] = true
    · rw [if_pos hbet]
      show ForkChoiceInv ⟨alInsert s.chains b.header.hash [b], some b.header.hash⟩
      refine ⟨fun hn => Option.noConfusion hn, ?_⟩
      intro h hh
      injection hh with hh
      subst hh
      refine ⟨[b], alLookup_insert_self _ _ _, ?_⟩
      intro p hp
      rcases mem_alInsert _ _ _ p hp with hin | rfl
      · cases hbest : s.best_chain_hash with
        | none =>
          rw [hnone hbest] at hin
          cases hin
        | some h0 =>
          obtain ⟨c0, hc0, hmax0⟩ := hmax h0 hbest
          have hgb : s.get_best_chain = some c0 := by
            simp only [ForkChoice.get_best_chain, hbest, hc0]
          exact Nat.le_trans (hmax0 p hin) (is_better_chain_length s [b] c0 hgb hbet)
      · exact Nat.le_refl _
    · rw [if_neg hbet]
      show ForkChoiceInv ⟨alInsert s.chains b.header.hash [b], s.best_chain_hash⟩
      refine ⟨?_, ?_⟩
      · intro hn
        exfalso
        have hn2 : s.best_chain_hash = none := hn
        have hgb : s.get_best_chain = none := by
          simp only [ForkChoice.get_best_chain, hn2]
        exact hbet (by simp only [ForkChoice.is_better_chain, hgb])
      · intro h hh
        have hh2 : s.best_chain_hash = some h := hh
        obtain ⟨c0, hc0, hmax0⟩ := hmax h hh2
        have hne : h ≠ b.header.hash := by
          intro he
          rw [he, hfresh] at hc0
          exact Option.noConfusion hc0
        refine ⟨c0, ?_, ?_⟩
        · show alLookup (alInsert s.chains b.header.hash [b]) h = some c0
          rw [alLookup_insert_ne _ _ _ _ hne]
          exact hc0
        · intro p hp
          rcases mem_alInsert _ _ _ p hp with hin | rfl
          · exact hmax0 p hin
          · have hgb : s.get_best_chain = some c0 := by
              simp only [ForkChoice.get_best_chain, hh2, hc0]
            have hbf : s.is_better_chain [b] = false := by
              cases hbb : s.is_better_chain [b]
              · rfl
              · exact absurd hbb hbet
            exact not_better_chain_length s [b] c0 hgb hbf
  · simp only [ForkChoice.add_block, if_neg hprev]
    cases hfind : s.find_chain_with_tip b.header.previous_hash with
    | none => exact ⟨hnone, hmax⟩
    | some chain =>
      dsimp only
      by_cases hval : Chain.validate_block chain b = true
      · rw [if_neg (show ¬ ¬ Chain.validate_block chain b = true from fun hc => hc hval)]
        have hchain1 : (Chain.add_block chain b).1 = chain ++ [b] := by
          rw [Chain.add_block, if_pos hval]
        rw [hchain1, if_pos hprev]
        by_cases hbet : s.is_better_chain (chain ++ [b]) = true
        · rw [if_pos hbet]
          show ForkChoiceInv
            ⟨alRemove (alInsert s.chains b.header.hash (chain ++ [b])) b.header.previous_hash,
              some b.header.hash⟩
          refine ⟨fun hn => Option.noConfusion hn, ?_⟩
          intro h hh
          injection hh with hh
          subst hh
          refine ⟨chain ++ [b], ?_, ?_⟩
          · rw [alLookup_remove_ne _ _ _ hloop]
            exact alLookup_insert_self _ _ _
          · intro p hp
            have hp2 := mem_alRemove _ _ p hp
            rcases mem_alInsert _ _ _ p hp2 with hin | rfl
            · cases hbest : s.best_chain_hash with
              | none =>
                rw [hnone hbest] at hin
                cases hin
              | some h0 =>
                obtain ⟨c0, hc0, hmax0⟩ := hmax h0 hbest
                have hgb : s.get_best_chain = some c0 := by
                  simp only [ForkChoice.get_best_chain, hbest, hc0]
                exact Nat.le_trans (hmax0 p hin)
                  (is_better_chain_length s (chain ++ [b]) c0 hgb hbet)
            · exact Nat.le_refl _
        · rw [if_neg hbet]
          show ForkChoiceInv
            ⟨alRemove (alInsert s.chains b.header.hash (chain ++ [b])) b.header.previous_hash,
              s.best_chain_hash⟩
          refine ⟨?_, ?_⟩
          · intro hn
            exfalso
            have hcs : s.chains = [] := hnone hn
            rw [ForkChoice.find_chain_with_tip, hcs] at hfind
            simp only [alLookup, findChainAux] at hfind
            exact Option.noConfusion hfind
          · intro h hh
            have hh2 : s.best_chain_hash = some h := hh
            obtain ⟨c0, hc0, hmax0⟩ := hmax h hh2
            have hgb : s.get_best_chain = some c0 := by
              simp only [ForkChoice.get_best_chain, hh2, hc0]
            have hbf : s.is_better_chain (chain ++ [b]) = false := by
              cases hbb : s.is_better_chain (chain ++ [b])
              · rfl
              · exact absurd hbb hbet
            have hnb : h ≠ b.header.hash := by
              intro he
              rw [he, hfresh] at hc0
              exact Option.noConfusion hc0
            have hnp : h ≠ b.header.previous_hash := by
              intro he
              have hl : alLookup s.chains b.header.previous_hash = some c0 := by
                rw [← he]
                exact hc0
              have hfc : s.find_chain_with_tip b.header.previous_hash = some c0 := by
                rw [ForkChoice.find_chain_with_tip, hl]
              rw [hfind] at hfc
              injection hfc with hfc
              rw [← hfc] at hgb
              have hlonger : s.is_better_chain (chain ++ [b]) = true :=
                is_better_chain_of_longer s (chain ++ [b]) chain hgb (by simp)
              rw [hlonger] at hbf
              cases hbf
            refine ⟨c0, ?_, ?_⟩
            · show alLookup
                (alRemove (alInsert s.chains b.header.hash (chain ++ [b]))
                  b.header.previous_hash) h = some c0
              rw [alLookup_remove_ne _ _ _ hnp, alLookup_insert_ne _ _ _ _ hnb]
              exact hc0
            · intro p hp
              have hp2 := mem_alRemove _ _ p hp
              rcases mem_alInsert _ _ _ p hp2 with hin | rfl
              · exact hmax0 p hin
              · exact not_better_chain_length s (chain ++ [b]) c0 hgb hbf
      · rw [if_pos (show ¬ Chain.validate_block chain b = true from hval)]
        exact ⟨hnone, hmax⟩

/-- The fork-choice invariant is preserved along any fresh block sequence. -/
theorem ForkChoiceInv_applyBlocks (bs : List Block) :
    ∀ s : ForkChoice, ForkChoiceInv s → FreshSeq s bs → ForkChoiceInv (applyBlocks s bs) := by
  induction bs with
  | nil => intro s hinv _; exact hinv
  | cons b rest ih =>
    intro s hinv hf
    exact ih (s.add_block b).2 (ForkChoiceInv_step s b hinv hf.1) hf.2

/-- C2 (amended): starting from new() or with_genesis_chain, after any
sequence of add_block calls whose blocks are fresh (hash not already a
stored tip key and different from the block's own previous_hash), whenever
best_chain_hash is set it keys a stored chain of maximal block count; and
at any such state an equal-length chain is judged better than the current
best only when its tip's timestamp is strictly greater. -/
theorem fork_choice_best_invariant (s0 : ForkChoice) (bs : List Block)
    (h0 : s0 = ForkChoice.new ∨ ∃ c, s0 = ForkChoice.with_genesis_chain c)
    (hf : FreshSeq s0 bs) :
    BestMaximal (applyBlocks s0 bs) ∧ TieBreakOnly (applyBlocks s0 bs) := by
  have hinv : ForkChoiceInv s0 := by
    rcases h0 with rfl | ⟨c, rfl⟩
    · exact ForkChoiceInv_new
    · exact ForkChoiceInv_with_genesis c
  exact ⟨(ForkChoiceInv_applyBlocks bs s0 hinv hf).2, tieBreakOnly_all _⟩

/-- Counterexample for C2 as stated: adding a genesis-style block with tip
hash "aa" and then a block whose hash equals its own previous_hash "aa"
leaves best_chain_hash = some "aa" while the chain map is empty, so the
best hash keys no stored chain at all. -/
theorem fork_choice_dangling_best :
    (applyBlocks ForkChoice.new [c2G, c2Loop]).best_chain_hash = some "aa" ∧
    alLookup (applyBlocks ForkChoice.new [c2G, c2Loop]).chains "aa" = none ∧
    ¬ BestMaximal (applyBlocks ForkChoice.new [c2G, c2Loop]) := by
  refine ⟨by decide, by decide, ?_⟩
  intro hbm
  obtain ⟨c, hc, _⟩ := hbm "aa" (by decide)
  rw [show alLookup (applyBlocks ForkChoice.new [c2G, c2Loop]).chains "aa" = none
    from by decide] at hc
  exact Option.noConfusion hc

/-- Witness for the amended C2: one fresh genesis-style block added to a
new fork choice. -/
theorem fork_choice_best_invariant_witness :
    FreshSeq ForkChoice.new [c2W] ∧
    (BestMaximal (applyBlocks ForkChoice.new [c2W]) ∧
      TieBreakOnly (applyBlocks ForkChoice.new [c2W])) :=
  ⟨⟨⟨rfl, by decide⟩, trivial⟩,
    fork_choice_best_invariant ForkChoice.new [c2W] (Or.inl rfl) ⟨⟨rfl, by decide⟩, trivial⟩⟩
